import Mathlib

/-!
Shallow embedding of the central index server in `control.py`
(class `ServerOperations`): the three hash tables and the five
operations `registry`, `update`, `list_files_index_server`, `search`,
`deregistry`.

Python dictionaries are modelled as insertion-ordered association
lists: assignment `d[k] = v` updates the first (and, for genuine
Python dictionaries, only) pair with key `k` in place, or appends a
new pair at the end; `d.pop(k, None)` removes the pair with key `k`;
`k in d` is key containment.  Python lists are Lean lists;
`list.append` is `· ++ [x]`, `list.remove(x)` removes the first
occurrence of `x`.
-/

/-- Python `d[k]` / `d.get(k)`: value of the first pair whose key is `k`. -/
def dictLookup {K V : Type} [DecidableEq K] : List (K × V) → K → Option V
  | [], _ => none
  | (k, v) :: rest, key => if k = key then some v else dictLookup rest key

/-- Python `d[k] = v`: update the first pair with key `k` in place, else append. -/
def dictInsert {K V : Type} [DecidableEq K] : List (K × V) → K → V → List (K × V)
  | [], key, v => [(key, v)]
  | (k, w) :: rest, key, v =>
    if k = key then (key, v) :: rest else (k, w) :: dictInsert rest key v

/-- Python `d.pop(k, None)`: remove the first pair with key `k` (if any). -/
def dictPop {K V : Type} [DecidableEq K] : List (K × V) → K → List (K × V)
  | [], _ => []
  | (k, w) :: rest, key => if k = key then rest else (k, w) :: dictPop rest key

/-- Python `lst.remove(a)`: drop the first occurrence of `a`. -/
def listRemove {α : Type} [DecidableEq α] : List α → α → List α
  | [], _ => []
  | x :: xs, a => if x = a then xs else x :: listRemove xs a

/-- The loop `for peer_id in lst: if peer_id == target: lst.remove(peer_id)`
from `update` (lines 109-113) and `deregistry` (lines 163-167): iteration is
by index over the list while it is being mutated, so after each removal the
element that slides into the removed slot is skipped.  `fuel` bounds the
number of index steps; the index grows by one each step and the list never
grows, so `l.length` steps always suffice. -/
def pyRemoveGo (target : String) : Nat → List String → Nat → List String
  | 0, l, _ => l
  | fuel + 1, l, i =>
    if h : i < l.length then
      if l.get ⟨i, h⟩ = target then pyRemoveGo target fuel (listRemove l target) (i + 1)
      else pyRemoveGo target fuel l (i + 1)
    else l

/-- The full remove-while-iterating loop, started at index 0. -/
def pyRemoveLoop (l : List String) (target : String) : List String :=
  pyRemoveGo target l.length l 0

/-- The three hash tables of `ServerOperations.__init__` (lines 40-42):
`hash_table_ports_peers` is `portToAddress`, `hash_table_files` is
`fileToPeers`, `hash_table_peer_files` is `peerToFiles`. -/
structure ServerState where
  hash_table_ports_peers : List (Nat × String)
  hash_table_files : List (String × List String)
  hash_table_peer_files : List (String × List String)
deriving DecidableEq, Repr

/-- The state of a freshly constructed `ServerOperations` object. -/
def emptyState : ServerState := ⟨[], [], []⟩

/-- The `for f in files` loop of `registry` (lines 78-82). -/
def regFold (peer_id : String) : List (String × List String) → List String →
    List (String × List String)
  | m, [] => m
  | m, f :: rest =>
    match dictLookup m f with
    | some l => regFold peer_id (dictInsert m f (l ++ [peer_id])) rest
    | none => regFold peer_id (dictInsert m f [peer_id]) rest

/-- `ServerOperations.registry` (lines 63-86).  `addr` is `addr[0]`, the
source IP address of the connection; the method always returns `True`. -/
def registry (s : ServerState) (addr : String) (files : List String)
    (peer_port : Nat) : Bool × ServerState :=
  let peer_id := addr ++ ":" ++ toString peer_port
  (true,
    { hash_table_ports_peers := dictInsert s.hash_table_ports_peers peer_port addr
      hash_table_files := regFold peer_id s.hash_table_files files
      hash_table_peer_files := dictInsert s.hash_table_peer_files peer_id files })

/-- The `update` request payload (lines 97-107): `task`, `peer_id`, `files`. -/
structure PeerUpdate where
  task : String
  peer_id : String
  files : List String
deriving DecidableEq, Repr

/-- The `for f in peer_update['files']` loop of the `add` branch of `update`
(lines 98-103).  A missing `peer_id` key raises `KeyError` on line 99, which
the `except` clause turns into `False`, keeping the mutations already made. -/
def updateAddLoop (pid : String) : ServerState → List String → Bool × ServerState
  | s, [] => (true, s)
  | s, f :: rest =>
    match dictLookup s.hash_table_peer_files pid with
    | none => (false, s)
    | some pl =>
      let s1 := { s with
        hash_table_peer_files := dictInsert s.hash_table_peer_files pid (pl ++ [f]) }
      let s2 :=
        match dictLookup s1.hash_table_files f with
        | some l =>
          { s1 with hash_table_files := dictInsert s1.hash_table_files f (l ++ [pid]) }
        | none =>
          { s1 with hash_table_files := dictInsert s1.hash_table_files f [pid] }
      updateAddLoop pid s2 rest

/-- The `for f in peer_update['files']` loop of the `rm` branch of `update`
(lines 105-113).  Line 107 raises `KeyError` if the peer is unknown and
`ValueError` if `f` is not in its list; either lands in the `except` clause,
returning `False` with the mutations already made kept.  The inner loop over
`hash_table_files[f]` is the remove-while-iterating loop `pyRemoveLoop`, and
the key is popped exactly when the list becomes empty (lines 112-113). -/
def updateRmLoop (pid : String) : ServerState → List String → Bool × ServerState
  | s, [] => (true, s)
  | s, f :: rest =>
    match dictLookup s.hash_table_peer_files pid with
    | none => (false, s)
    | some pl =>
      if f ∈ pl then
        let s1 := { s with
          hash_table_peer_files := dictInsert s.hash_table_peer_files pid (listRemove pl f) }
        let s2 :=
          match dictLookup s1.hash_table_files f with
          | some l =>
            let l' := pyRemoveLoop l pid
            if l' = [] then
              { s1 with hash_table_files := dictPop s1.hash_table_files f }
            else
              { s1 with hash_table_files := dictInsert s1.hash_table_files f l' }
          | none => s1
        updateRmLoop pid s2 rest
      else (false, s)

/-- `ServerOperations.update` (lines 88-117).  The two `if` statements on
`task` are mutually exclusive; if neither matches, the method falls through
to `return True` without touching any table. -/
def update (s : ServerState) (pu : PeerUpdate) : Bool × ServerState :=
  if pu.task = "add" then updateAddLoop pu.peer_id s pu.files
  else if pu.task = "rm" then updateRmLoop pu.peer_id s pu.files
  else (true, s)

/-- `ServerOperations.list_files_index_server` (lines 119-130):
`hash_table_files.keys()`. -/
def list_files_index_server (s : ServerState) : List String :=
  s.hash_table_files.map Prod.fst

/-- `ServerOperations.search` (lines 132-146). -/
def search (s : ServerState) (file_name : String) : List String :=
  match dictLookup s.hash_table_files file_name with
  | some peer_list => peer_list
  | none => []

/-- The `deregister` request payload (lines 157-161). -/
structure PeerData where
  peer_id : String
  hosting_port : Nat
  files : List String
deriving DecidableEq, Repr

/-- The `for f in peer_data['files']` loop of `deregistry` (lines 161-167):
for each file present in `hash_table_files`, run the remove-while-iterating
loop and pop the key when the list becomes empty. -/
def deregFileLoop (pid : String) : List (String × List String) → List String →
    List (String × List String)
  | m, [] => m
  | m, f :: rest =>
    match dictLookup m f with
    | some l =>
      let l' := pyRemoveLoop l pid
      deregFileLoop pid (if l' = [] then dictPop m f else dictInsert m f l') rest
    | none => deregFileLoop pid m rest

/-- `ServerOperations.deregistry` (lines 148-171); always returns `True`. -/
def deregistry (s : ServerState) (pd : PeerData) : Bool × ServerState :=
  let ports :=
    if (dictLookup s.hash_table_ports_peers pd.hosting_port).isSome then
      dictPop s.hash_table_ports_peers pd.hosting_port
    else s.hash_table_ports_peers
  let ptf :=
    if (dictLookup s.hash_table_peer_files pd.peer_id).isSome then
      dictPop s.hash_table_peer_files pd.peer_id
    else s.hash_table_peer_files
  (true,
    { hash_table_ports_peers := ports
      hash_table_files := deregFileLoop pd.peer_id s.hash_table_files pd.files
      hash_table_peer_files := ptf })

/-- One client request, as dispatched by `ServerOperations.run`
(lines 192-241): the five commands of the protocol. -/
inductive Op where
  | register (addr : String) (files : List String) (peer_port : Nat)
  | updateOp (pu : PeerUpdate)
  | listOp
  | searchOp (file_name : String)
  | deregister (pd : PeerData)
deriving DecidableEq, Repr

/-- State transition of one dispatched request; `search` and `list` do not
modify the tables. -/
def applyOp (s : ServerState) (op : Op) : ServerState :=
  match op with
  | .register addr files peer_port => (registry s addr files peer_port).2
  | .updateOp pu => (update s pu).2
  | .listOp => s
  | .searchOp _ => s
  | .deregister pd => (deregistry s pd).2

/-- State reached after a sequence of requests starting from a fresh server. -/
def runOps (ops : List Op) : ServerState :=
  ops.foldl applyOp emptyState

/-! ### Lemmas about the dictionary model -/

theorem dictLookup_insert_self {K V : Type} [DecidableEq K] (m : List (K × V)) (k : K) (v : V) :
    dictLookup (dictInsert m k v) k = some v := by
  induction m with
  | nil => simp [dictInsert, dictLookup]
  | cons p rest ih =>
    obtain ⟨k', w⟩ := p
    by_cases h : k' = k
    · simp [dictInsert, h, dictLookup]
    · simp [dictInsert, h, dictLookup, ih]

theorem dictLookup_insert_ne {K V : Type} [DecidableEq K] (m : List (K × V)) {k k' : K}
    (v : V) (h : k' ≠ k) : dictLookup (dictInsert m k v) k' = dictLookup m k' := by
  have hne : k ≠ k' := fun hh => h hh.symm
  induction m with
  | nil => simp [dictInsert, dictLookup, hne]
  | cons p rest ih =>
    obtain ⟨k₀, w⟩ := p
    by_cases hk : k₀ = k
    · subst hk
      simp [dictInsert, dictLookup, hne]
    · simp [dictInsert, hk, dictLookup, ih]

theorem dictInsert_lookup_self {K V : Type} [DecidableEq K] {m : List (K × V)} {k : K} {v : V}
    (h : dictLookup m k = some v) : dictInsert m k v = m := by
  induction m with
  | nil => simp [dictLookup] at h
  | cons p rest ih =>
    obtain ⟨k₀, w⟩ := p
    by_cases hk : k₀ = k
    · subst hk
      simp [dictLookup] at h
      simp [dictInsert, h]
    · simp [dictLookup, hk] at h
      simp [dictInsert, hk, ih h]

theorem dictInsert_dictInsert {K V : Type} [DecidableEq K] (m : List (K × V)) (k : K)
    (v w : V) : dictInsert (dictInsert m k v) k w = dictInsert m k w := by
  induction m with
  | nil => simp [dictInsert]
  | cons p rest ih =>
    obtain ⟨k₀, u⟩ := p
    by_cases hk : k₀ = k
    · simp [dictInsert, hk]
    · simp [dictInsert, hk, ih]

theorem dictPop_insert_fresh {K V : Type} [DecidableEq K] {m : List (K × V)} {k : K} (v : V)
    (h : dictLookup m k = none) : dictPop (dictInsert m k v) k = m := by
  induction m with
  | nil => simp [dictInsert, dictPop]
  | cons p rest ih =>
    obtain ⟨k₀, w⟩ := p
    by_cases hk : k₀ = k
    · simp [dictLookup, hk] at h
    · simp [dictLookup, hk] at h
      simp [dictInsert, hk, dictPop, ih h]

theorem dictLookup_pop_ne {K V : Type} [DecidableEq K] (m : List (K × V)) {k k' : K}
    (h : k' ≠ k) : dictLookup (dictPop m k) k' = dictLookup m k' := by
  have hne : k ≠ k' := fun hh => h hh.symm
  induction m with
  | nil => simp [dictPop]
  | cons p rest ih =>
    obtain ⟨k₀, w⟩ := p
    by_cases hk : k₀ = k
    · subst hk
      simp [dictPop, dictLookup, hne]
    · simp [dictPop, hk, dictLookup, ih]

theorem dictLookup_not_mem_keys {K V : Type} [DecidableEq K] {m : List (K × V)} {k : K}
    (h : k ∉ m.map Prod.fst) : dictLookup m k = none := by
  induction m with
  | nil => simp [dictLookup]
  | cons p rest ih =>
    obtain ⟨k₀, w⟩ := p
    simp only [List.map_cons, List.mem_cons, not_or] at h
    have hk : k₀ ≠ k := fun hh => h.1 hh.symm
    simp [dictLookup, hk, ih h.2]

theorem dictLookup_pop_self {K V : Type} [DecidableEq K] {m : List (K × V)} (k : K)
    (h : (m.map Prod.fst).Nodup) : dictLookup (dictPop m k) k = none := by
  induction m with
  | nil => simp [dictPop, dictLookup]
  | cons p rest ih =>
    obtain ⟨k₀, w⟩ := p
    simp only [List.map_cons, List.nodup_cons] at h
    by_cases hk : k₀ = k
    · subst hk
      simp only [dictPop, if_pos rfl]
      exact dictLookup_not_mem_keys h.1
    · simp [dictPop, hk, dictLookup, ih h.2]

theorem dictPop_none {K V : Type} [DecidableEq K] {m : List (K × V)} {k : K}
    (h : dictLookup m k = none) : dictPop m k = m := by
  induction m with
  | nil => simp [dictPop]
  | cons p rest ih =>
    obtain ⟨k₀, w⟩ := p
    by_cases hk : k₀ = k
    · simp [dictLookup, hk] at h
    · simp [dictLookup, hk] at h
      simp [dictPop, hk, ih h]

theorem mem_dictInsert {K V : Type} [DecidableEq K] {m : List (K × V)} {k : K} {v : V}
    {pr : K × V} (h : pr ∈ dictInsert m k v) : pr ∈ m ∨ pr = (k, v) := by
  induction m with
  | nil =>
    simp [dictInsert] at h
    simp [h]
  | cons p rest ih =>
    obtain ⟨k₀, w⟩ := p
    by_cases hk : k₀ = k
    · simp only [dictInsert, if_pos hk] at h
      rcases List.mem_cons.mp h with h | h
      · right; exact h
      · left; exact List.mem_cons_of_mem _ h
    · simp only [dictInsert, if_neg hk] at h
      rcases List.mem_cons.mp h with h | h
      · left; simp [h]
      · rcases ih h with h | h
        · left; exact List.mem_cons_of_mem _ h
        · right; exact h

theorem mem_dictPop {K V : Type} [DecidableEq K] {m : List (K × V)} {k : K} {pr : K × V}
    (h : pr ∈ dictPop m k) : pr ∈ m := by
  induction m with
  | nil => simp [dictPop] at h
  | cons p rest ih =>
    obtain ⟨k₀, w⟩ := p
    by_cases hk : k₀ = k
    · simp only [dictPop, if_pos hk] at h
      exact List.mem_cons_of_mem _ h
    · simp only [dictPop, if_neg hk] at h
      rcases List.mem_cons.mp h with h | h
      · simp [h]
      · exact List.mem_cons_of_mem _ (ih h)

theorem dictLookup_isSome_iff {K V : Type} [DecidableEq K] (m : List (K × V)) (k : K) :
    (dictLookup m k).isSome = true ↔ k ∈ m.map Prod.fst := by
  induction m with
  | nil => simp [dictLookup]
  | cons p rest ih =>
    obtain ⟨k₀, w⟩ := p
    by_cases hk : k₀ = k
    · subst hk
      simp [dictLookup]
    · have hne : k ≠ k₀ := fun hh => hk hh.symm
      simp [dictLookup, hk, ih, hne]

theorem keys_dictInsert_subset {K V : Type} [DecidableEq K] {m : List (K × V)} {k : K} {v : V}
    {key : K} (h : key ∈ (dictInsert m k v).map Prod.fst) :
    key ∈ m.map Prod.fst ∨ key = k := by
  rcases List.mem_map.mp h with ⟨q, hq, hq1⟩
  rcases mem_dictInsert hq with hq' | hq'
  · left
    exact hq1 ▸ List.mem_map_of_mem Prod.fst hq'
  · right
    rw [← hq1, hq']

theorem keysNodup_dictInsert {K V : Type} [DecidableEq K] {m : List (K × V)} (k : K) (v : V)
    (h : (m.map Prod.fst).Nodup) : ((dictInsert m k v).map Prod.fst).Nodup := by
  induction m with
  | nil => simp [dictInsert]
  | cons p rest ih =>
    obtain ⟨k₀, w⟩ := p
    simp only [List.map_cons, List.nodup_cons] at h
    by_cases hk : k₀ = k
    · subst hk
      simpa [dictInsert, List.nodup_cons] using h
    · simp only [dictInsert, if_neg hk, List.map_cons, List.nodup_cons]
      refine ⟨fun hmem => ?_, ih h.2⟩
      rcases keys_dictInsert_subset hmem with hc | hc
      · exact h.1 hc
      · exact hk hc

theorem keysNodup_dictPop {K V : Type} [DecidableEq K] {m : List (K × V)} (k : K)
    (h : (m.map Prod.fst).Nodup) : ((dictPop m k).map Prod.fst).Nodup := by
  induction m with
  | nil => simp [dictPop]
  | cons p rest ih =>
    obtain ⟨k₀, w⟩ := p
    simp only [List.map_cons, List.nodup_cons] at h
    by_cases hk : k₀ = k
    · simp only [dictPop, if_pos hk]
      exact h.2
    · simp only [dictPop, if_neg hk, List.map_cons, List.nodup_cons]
      refine ⟨fun hmem => ?_, ih h.2⟩
      apply h.1
      rcases List.mem_map.mp hmem with ⟨q, hq, hq1⟩
      exact hq1 ▸ List.mem_map_of_mem Prod.fst (mem_dictPop hq)

/-! ### Lemmas about `listRemove` and the remove-while-iterating loop -/

theorem listRemove_not_mem {α : Type} [DecidableEq α] {l : List α} {a : α} (h : a ∉ l) :
    listRemove l a = l := by
  induction l with
  | nil => rfl
  | cons x xs ih =>
    simp only [List.mem_cons, not_or] at h
    have hx : x ≠ a := fun hh => h.1 hh.symm
    simp [listRemove, hx, ih h.2]

theorem count_listRemove {α : Type} [DecidableEq α] (l : List α) (a : α) :
    (listRemove l a).count a = l.count a - 1 := by
  induction l with
  | nil => simp [listRemove]
  | cons x xs ih =>
    by_cases h : x = a
    · subst h
      simp [listRemove, List.count_cons_self]
    · have hax : a ≠ x := fun hh => h hh.symm
      simp [listRemove, h, List.count_cons_of_ne hax, ih]

theorem listRemove_append_single {α : Type} [DecidableEq α] {l : List α} {a : α}
    (h : a ∉ l) : listRemove (l ++ [a]) a = l := by
  induction l with
  | nil => simp [listRemove]
  | cons x xs ih =>
    simp only [List.mem_cons, not_or] at h
    have hx : x ≠ a := fun hh => h.1 hh.symm
    simp [listRemove, hx, ih h.2]

theorem pyRemoveGo_not_mem (a : String) :
    ∀ (fuel : Nat) (l : List String) (i : Nat), a ∉ l → pyRemoveGo a fuel l i = l := by
  intro fuel
  induction fuel with
  | zero => intro l i _; rfl
  | succ n ih =>
    intro l i h
    by_cases hi : i < l.length
    · have hne : l.get ⟨i, hi⟩ ≠ a := fun hh => h (hh ▸ List.get_mem l i hi)
      simp only [pyRemoveGo]
      rw [dif_pos hi, if_neg hne]
      exact ih l (i + 1) h
    · simp only [pyRemoveGo]
      rw [dif_neg hi]

theorem pyRemoveGo_single (a : String) :
    ∀ (fuel : Nat) (l : List String) (i : Nat), l.length - i ≤ fuel → a ∉ l.take i →
      l.count a ≤ 1 → pyRemoveGo a fuel l i = listRemove l a := by
  intro fuel
  induction fuel with
  | zero =>
    intro l i hfuel htake _
    have hi : l.length ≤ i := by omega
    rw [List.take_of_length_le hi] at htake
    rw [listRemove_not_mem htake]
    rfl
  | succ n ih =>
    intro l i hfuel htake hcount
    by_cases hi : i < l.length
    · by_cases hget : l.get ⟨i, hi⟩ = a
      · have hmem : a ∈ l := hget ▸ List.get_mem l i hi
        have hnot : a ∉ listRemove l a := by
          rw [← List.count_eq_zero, count_listRemove]
          have : 0 < l.count a := List.count_pos_iff.mpr hmem
          omega
        simp only [pyRemoveGo]
        rw [dif_pos hi, if_pos hget]
        exact pyRemoveGo_not_mem a n _ _ hnot
      · have htake' : a ∉ l.take (i + 1) := by
          rw [List.take_succ]
          simp only [List.mem_append, not_or]
          refine ⟨htake, ?_⟩
          have hgi : l[i]? = some (l.get ⟨i, hi⟩) := by
            rw [List.getElem?_eq_getElem hi]
            simp [List.get_eq_getElem]
          simp only [hgi, Option.toList_some, List.mem_singleton]
          exact fun hh => hget hh.symm
        have hrec := ih l (i + 1) (by omega) htake' hcount
        simp only [pyRemoveGo]
        rw [dif_pos hi, if_neg hget]
        exact hrec
    · have hlen : l.length ≤ i := by omega
      rw [List.take_of_length_le hlen] at htake
      rw [listRemove_not_mem htake]
      simp only [pyRemoveGo]
      rw [dif_neg hi]

theorem pyRemoveLoop_not_mem {l : List String} {a : String} (h : a ∉ l) :
    pyRemoveLoop l a = l :=
  pyRemoveGo_not_mem a l.length l 0 h

theorem pyRemoveLoop_single {l : List String} {a : String} (h : l.count a ≤ 1) :
    pyRemoveLoop l a = listRemove l a :=
  pyRemoveGo_single a l.length l 0 (by omega) (by simp) h

theorem not_mem_pyRemoveLoop {l : List String} {a : String} (h : l.count a ≤ 1) :
    a ∉ pyRemoveLoop l a := by
  rw [pyRemoveLoop_single h, ← List.count_eq_zero, count_listRemove]
  omega

theorem pyRemoveLoop_append_single {l : List String} {a : String} (h : a ∉ l) :
    pyRemoveLoop (l ++ [a]) a = l := by
  have hc : (l ++ [a]).count a ≤ 1 := by
    rw [List.count_append]
    have : l.count a = 0 := List.count_eq_zero.mpr h
    simp [this]
  rw [pyRemoveLoop_single hc, listRemove_append_single h]

/-! ### Lemmas about the registration fold -/

theorem regFold_lookup_not_mem (pid : String) :
    ∀ (fs : List String) (m : List (String × List String)) (f : String), f ∉ fs →
      dictLookup (regFold pid m fs) f = dictLookup m f := by
  intro fs
  induction fs with
  | nil => intro m f _; rfl
  | cons g rest ih =>
    intro m f hf
    simp only [List.mem_cons, not_or] at hf
    cases h : dictLookup m g with
    | some l =>
      simp only [regFold, h]
      rw [ih _ f hf.2, dictLookup_insert_ne _ _ hf.1]
    | none =>
      simp only [regFold, h]
      rw [ih _ f hf.2, dictLookup_insert_ne _ _ hf.1]

theorem regFold_lookup_mem (pid : String) :
    ∀ (fs : List String) (m : List (String × List String)) (f : String), fs.Nodup →
      f ∈ fs →
      dictLookup (regFold pid m fs) f = some ((dictLookup m f).getD [] ++ [pid]) := by
  intro fs
  induction fs with
  | nil => intro m f _ hf; simp at hf
  | cons g rest ih =>
    intro m f hnd hf
    simp only [List.nodup_cons] at hnd
    by_cases hfg : f = g
    · subst hfg
      cases h : dictLookup m f with
      | some l =>
        simp only [regFold, h]
        rw [regFold_lookup_not_mem pid rest _ f hnd.1, dictLookup_insert_self]
        simp
      | none =>
        simp only [regFold, h]
        rw [regFold_lookup_not_mem pid rest _ f hnd.1, dictLookup_insert_self]
        simp
    · have hfr : f ∈ rest := by
        rcases List.mem_cons.mp hf with h | h
        · exact absurd h hfg
        · exact h
      cases h : dictLookup m g with
      | some l =>
        simp only [regFold, h]
        rw [ih _ f hnd.2 hfr, dictLookup_insert_ne _ _ hfg]
      | none =>
        simp only [regFold, h]
        rw [ih _ f hnd.2 hfr, dictLookup_insert_ne _ _ hfg]

/-! ### The no-empty-value invariant of `hash_table_files` -/

/-- Every value stored in the map is a nonempty list. -/
def MapNE (m : List (String × List String)) : Prop := ∀ pr ∈ m, pr.2 ≠ []

theorem mapNE_dictInsert {m : List (String × List String)} {k : String}
    {v : List String} (h : MapNE m) (hv : v ≠ []) : MapNE (dictInsert m k v) := by
  intro pr hpr
  rcases mem_dictInsert hpr with hpr | hpr
  · exact h pr hpr
  · rw [hpr]
    exact hv

theorem mapNE_dictPop {m : List (String × List String)} {k : String} (h : MapNE m) :
    MapNE (dictPop m k) := fun pr hpr => h pr (mem_dictPop hpr)

theorem regFold_mapNE (pid : String) :
    ∀ (fs : List String) (m : List (String × List String)), MapNE m →
      MapNE (regFold pid m fs) := by
  intro fs
  induction fs with
  | nil => intro m h; exact h
  | cons g rest ih =>
    intro m h
    cases hg : dictLookup m g with
    | some l =>
      simp only [regFold, hg]
      exact ih _ (mapNE_dictInsert h (by simp))
    | none =>
      simp only [regFold, hg]
      exact ih _ (mapNE_dictInsert h (by simp))

theorem updateAddLoop_mapNE (pid : String) :
    ∀ (fs : List String) (s : ServerState), MapNE s.hash_table_files →
      MapNE ((updateAddLoop pid s fs).2).hash_table_files := by
  intro fs
  induction fs with
  | nil => intro s h; exact h
  | cons f rest ih =>
    intro s h
    cases hp : dictLookup s.hash_table_peer_files pid with
    | none => simpa only [updateAddLoop, hp] using h
    | some pl =>
      cases hf : dictLookup s.hash_table_files f with
      | some l =>
        simp only [updateAddLoop, hp, hf]
        exact ih _ (mapNE_dictInsert h (by simp))
      | none =>
        simp only [updateAddLoop, hp, hf]
        exact ih _ (mapNE_dictInsert h (by simp))

theorem updateRmLoop_mapNE (pid : String) :
    ∀ (fs : List String) (s : ServerState), MapNE s.hash_table_files →
      MapNE ((updateRmLoop pid s fs).2).hash_table_files := by
  intro fs
  induction fs with
  | nil => intro s h; exact h
  | cons f rest ih =>
    intro s h
    cases hp : dictLookup s.hash_table_peer_files pid with
    | none => simpa only [updateRmLoop, hp] using h
    | some pl =>
      by_cases hmem : f ∈ pl
      · cases hf : dictLookup s.hash_table_files f with
        | some l =>
          by_cases hnil : pyRemoveLoop l pid = []
          · simp only [updateRmLoop, hp, if_pos hmem, hf, hnil, if_pos rfl]
            exact ih _ (mapNE_dictPop h)
          · simp only [updateRmLoop, hp, if_pos hmem, hf, if_neg hnil]
            exact ih _ (mapNE_dictInsert h hnil)
        | none =>
          simp only [updateRmLoop, hp, if_pos hmem, hf]
          exact ih _ h
      · simpa only [updateRmLoop, hp, if_neg hmem] using h

theorem deregFileLoop_mapNE (pid : String) :
    ∀ (fs : List String) (m : List (String × List String)), MapNE m →
      MapNE (deregFileLoop pid m fs) := by
  intro fs
  induction fs with
  | nil => intro m h; exact h
  | cons f rest ih =>
    intro m h
    cases hf : dictLookup m f with
    | some l =>
      by_cases hnil : pyRemoveLoop l pid = []
      · simp only [deregFileLoop, hf, hnil, if_pos rfl]
        exact ih _ (mapNE_dictPop h)
      · simp only [deregFileLoop, hf, if_neg hnil]
        exact ih _ (mapNE_dictInsert h hnil)
    | none =>
      simp only [deregFileLoop, hf]
      exact ih _ h

/-! ### Lemmas about the deregistration file loop -/

theorem deregFileLoop_lookup_not_mem (pid : String) :
    ∀ (fs : List String) (m : List (String × List String)) (f : String), f ∉ fs →
      dictLookup (deregFileLoop pid m fs) f = dictLookup m f := by
  intro fs
  induction fs with
  | nil => intro m f _; rfl
  | cons g rest ih =>
    intro m f hf
    simp only [List.mem_cons, not_or] at hf
    cases hg : dictLookup m g with
    | some l =>
      by_cases hnil : pyRemoveLoop l pid = []
      · simp only [deregFileLoop, hg, hnil, if_true]
        rw [ih _ f hf.2, dictLookup_pop_ne _ hf.1]
      · simp only [deregFileLoop, hg, if_neg hnil]
        rw [ih _ f hf.2, dictLookup_insert_ne _ _ hf.1]
    | none =>
      simp only [deregFileLoop, hg]
      exact ih _ f hf.2

theorem deregFileLoop_postcondition (pid : String) :
    ∀ (fs : List String) (m : List (String × List String)),
      (m.map Prod.fst).Nodup →
      (∀ f ∈ fs, ((dictLookup m f).getD []).count pid ≤ 1) →
      ∀ f ∈ fs,
        dictLookup (deregFileLoop pid m fs) f = none ∨
        ∃ l, dictLookup (deregFileLoop pid m fs) f = some l ∧ pid ∉ l ∧ l ≠ [] := by
  intro fs
  induction fs with
  | nil => intro m _ _ f hf; simp at hf
  | cons g rest ih =>
    intro m hnd hcount f hf
    have hcg : ((dictLookup m g).getD []).count pid ≤ 1 := hcount g (List.mem_cons_self g rest)
    cases hg : dictLookup m g with
    | none =>
      simp only [deregFileLoop, hg]
      rcases List.mem_cons.mp hf with hfg | hfr
      · subst hfg
        by_cases hgr : f ∈ rest
        · exact ih m hnd (fun f' hf' => hcount f' (List.mem_cons_of_mem _ hf')) f hgr
        · left
          rw [deregFileLoop_lookup_not_mem pid rest m f hgr]
          exact hg
      · exact ih m hnd (fun f' hf' => hcount f' (List.mem_cons_of_mem _ hf')) f hfr
    | some l =>
      rw [hg] at hcg
      simp only [Option.getD_some] at hcg
      have hpid : pid ∉ pyRemoveLoop l pid := not_mem_pyRemoveLoop hcg
      by_cases hnil : pyRemoveLoop l pid = []
      · simp only [deregFileLoop, hg, hnil, if_true]
        have hnd1 : ((dictPop m g).map Prod.fst).Nodup := keysNodup_dictPop g hnd
        have hcount1 : ∀ f' ∈ rest, ((dictLookup (dictPop m g) f').getD []).count pid ≤ 1 := by
          intro f' hf'
          by_cases hfg : f' = g
          · subst hfg
            rw [dictLookup_pop_self f' hnd]
            simp
          · rw [dictLookup_pop_ne _ hfg]
            exact hcount f' (List.mem_cons_of_mem _ hf')
        rcases List.mem_cons.mp hf with hfg | hfr
        · subst hfg
          by_cases hgr : f ∈ rest
          · exact ih _ hnd1 hcount1 f hgr
          · left
            rw [deregFileLoop_lookup_not_mem pid rest _ f hgr]
            exact dictLookup_pop_self f hnd
        · exact ih _ hnd1 hcount1 f hfr
      · simp only [deregFileLoop, hg, if_neg hnil]
        have hnd1 : ((dictInsert m g (pyRemoveLoop l pid)).map Prod.fst).Nodup :=
          keysNodup_dictInsert g _ hnd
        have hcount1 : ∀ f' ∈ rest,
            ((dictLookup (dictInsert m g (pyRemoveLoop l pid)) f').getD []).count pid ≤ 1 := by
          intro f' hf'
          by_cases hfg : f' = g
          · subst hfg
            rw [dictLookup_insert_self]
            simp [List.count_eq_zero.mpr hpid]
          · rw [dictLookup_insert_ne _ _ hfg]
            exact hcount f' (List.mem_cons_of_mem _ hf')
        rcases List.mem_cons.mp hf with hfg | hfr
        · subst hfg
          by_cases hgr : f ∈ rest
          · exact ih _ hnd1 hcount1 f hgr
          · right
            refine ⟨pyRemoveLoop l pid, ?_, hpid, hnil⟩
            rw [deregFileLoop_lookup_not_mem pid rest _ f hgr]
            exact dictLookup_insert_self _ _ _
        · exact ih _ hnd1 hcount1 f hfr

theorem deregFileLoop_id (pid : String) :
    ∀ (fs : List String) (m : List (String × List String)),
      (∀ f ∈ fs, dictLookup m f = none ∨ ∃ l, dictLookup m f = some l ∧ pid ∉ l ∧ l ≠ []) →
      deregFileLoop pid m fs = m := by
  intro fs
  induction fs with
  | nil => intro m _; rfl
  | cons g rest ih =>
    intro m h
    rcases h g (List.mem_cons_self g rest) with hg | ⟨l, hg, hpid, hne⟩
    · simp only [deregFileLoop, hg]
      exact ih m (fun f hf => h f (List.mem_cons_of_mem _ hf))
    · have hloop : pyRemoveLoop l pid = l := pyRemoveLoop_not_mem hpid
      simp only [deregFileLoop, hg, hloop, if_neg hne]
      rw [dictInsert_lookup_self hg]
      exact ih m (fun f hf => h f (List.mem_cons_of_mem _ hf))

/-! ### Preservation of the no-empty-value property along request sequences -/

theorem applyOp_mapNE (s : ServerState) (op : Op) (h : MapNE s.hash_table_files) :
    MapNE (applyOp s op).hash_table_files := by
  cases op with
  | register addr files peer_port =>
    simp only [applyOp, registry]
    exact regFold_mapNE _ files _ h
  | updateOp pu =>
    simp only [applyOp, update]
    by_cases h1 : pu.task = "add"
    · simp only [if_pos h1]
      exact updateAddLoop_mapNE _ pu.files s h
    · simp only [if_neg h1]
      by_cases h2 : pu.task = "rm"
      · simp only [if_pos h2]
        exact updateRmLoop_mapNE _ pu.files s h
      · simp only [if_neg h2]
        exact h
  | listOp => exact h
  | searchOp fn => exact h
  | deregister pd =>
    simp only [applyOp, deregistry]
    exact deregFileLoop_mapNE _ pd.files _ h

theorem foldl_applyOp_mapNE :
    ∀ (ops : List Op) (s : ServerState), MapNE s.hash_table_files →
      MapNE ((ops.foldl applyOp s).hash_table_files) := by
  intro ops
  induction ops with
  | nil => intro s h; exact h
  | cons op rest ih =>
    intro s h
    exact ih _ (applyOp_mapNE s op h)

/-! ### Claim theorems -/

/-- C2: `registry` sets `hash_table_ports_peers[peer_port]` to the source
address, replaces `hash_table_peer_files[peer_id]` with the file list as a
whole, appends `peer_id` to `hash_table_files[f]` for every file `f` of the
list (creating the entry when absent), and reports success. -/
theorem registry_spec (s : ServerState) (addr : String) (files : List String)
    (peer_port : Nat) (hnd : files.Nodup) :
    (registry s addr files peer_port).1 = true ∧
    dictLookup (registry s addr files peer_port).2.hash_table_ports_peers peer_port =
      some addr ∧
    dictLookup (registry s addr files peer_port).2.hash_table_peer_files
      (addr ++ ":" ++ toString peer_port) = some files ∧
    ∀ f ∈ files,
      dictLookup (registry s addr files peer_port).2.hash_table_files f =
        some ((dictLookup s.hash_table_files f).getD [] ++
          [addr ++ ":" ++ toString peer_port]) := by
  refine ⟨rfl, ?_, ?_, ?_⟩
  · simp only [registry]
    exact dictLookup_insert_self _ _ _
  · simp only [registry]
    exact dictLookup_insert_self _ _ _
  · intro f hf
    simp only [registry]
    exact regFold_lookup_mem _ files _ f hnd hf

/-- C2 witness: registering peer `1.2.3.4:9000` with `a.txt` and `b.txt` on a
fresh server stores exactly that file list for the peer id. -/
theorem registry_spec_witness :
    (["a.txt", "b.txt"] : List String).Nodup ∧
    dictLookup (registry emptyState "1.2.3.4" ["a.txt", "b.txt"] 9000).2.hash_table_peer_files
      ("1.2.3.4" ++ ":" ++ toString (9000 : Nat)) = some ["a.txt", "b.txt"] :=
  ⟨by decide, (registry_spec emptyState "1.2.3.4" ["a.txt", "b.txt"] 9000 (by decide)).2.2.1⟩

/-- C3: `search` returns `hash_table_files[file_name]` when the key is
present and the empty list otherwise, never failing; concretely, after
registering peer `1.2.3.4:9000` with `a.txt` and `b.txt` on a fresh server,
searching `a.txt` returns exactly that peer and searching `c.txt` returns
the empty list. -/
theorem search_spec :
    (∀ (s : ServerState) (file_name : String),
      search s file_name = (dictLookup s.hash_table_files file_name).getD []) ∧
    search (registry emptyState "1.2.3.4" ["a.txt", "b.txt"] 9000).2 "a.txt" =
      ["1.2.3.4:9000"] ∧
    search (registry emptyState "1.2.3.4" ["a.txt", "b.txt"] 9000).2 "c.txt" = [] := by
  refine ⟨?_, by decide, by decide⟩
  intro s fn
  cases h : dictLookup s.hash_table_files fn with
  | some l => simp [search, h]
  | none => simp [search, h]

/-- C7: `list_files_index_server` returns exactly the keys of
`hash_table_files`; concretely, after registering peer A with file `x` and
peer B with file `y` on a fresh server, the listing holds exactly `x` and
`y`. -/
theorem list_files_spec :
    (∀ (s : ServerState) (f : String),
      f ∈ list_files_index_server s ↔ (dictLookup s.hash_table_files f).isSome = true) ∧
    (∀ f : String,
      f ∈ list_files_index_server
          (registry (registry emptyState "10.0.0.1" ["x"] 1).2 "10.0.0.2" ["y"] 2).2 ↔
        f = "x" ∨ f = "y") := by
  constructor
  · intro s f
    simp only [list_files_index_server]
    exact (dictLookup_isSome_iff _ _).symm
  · intro f
    have hls : list_files_index_server
        (registry (registry emptyState "10.0.0.1" ["x"] 1).2 "10.0.0.2" ["y"] 2).2 =
        ["x", "y"] := by decide
    rw [hls]
    simp

/-- C10: an `update` whose task is neither `add` nor `rm` falls through both
branches, returns `True`, and leaves the whole state unchanged. -/
theorem update_other_task (s : ServerState) (pu : PeerUpdate)
    (h1 : pu.task ≠ "add") (h2 : pu.task ≠ "rm") : update s pu = (true, s) := by
  simp [update, h1, h2]

/-- C10 witness: task `noop` is accepted with success on a fresh server. -/
theorem update_other_task_witness :
    update emptyState ⟨"noop", "1.2.3.4:9000", ["a.txt"]⟩ = (true, emptyState) :=
  update_other_task emptyState ⟨"noop", "1.2.3.4:9000", ["a.txt"]⟩ (by decide) (by decide)

/-- C1 (amended): after every sequence of the five operations starting from
the empty Index Store, no key of `hash_table_files` is mapped to the empty
list.  The full claimed invariant is refuted by
`runOps_invariant_counterexample`. -/
theorem runOps_files_nonempty (ops : List Op) :
    ∀ pr ∈ (runOps ops).hash_table_files, pr.2 ≠ [] := by
  have hempty : MapNE emptyState.hash_table_files := by
    intro pr hpr
    simp [emptyState] at hpr
  exact foldl_applyOp_mapNE ops emptyState hempty

/-- C1 witness: the invariant instantiated on the state reached by one
registration. -/
theorem runOps_files_nonempty_witness :
    ("a.txt", ["1.2.3.4:9000"]) ∈
      (runOps [Op.register "1.2.3.4" ["a.txt"] 9000]).hash_table_files ∧
    (("a.txt", ["1.2.3.4:9000"]) : String × List String).2 ≠ [] :=
  ⟨by decide, runOps_files_nonempty [Op.register "1.2.3.4" ["a.txt"] 9000] _ (by decide)⟩

/-- C1 counterexample: re-registering a peer with an empty file list is a
reachable two-request sequence after which `hash_table_peer_files` maps the
peer id to the empty list (violating the no-empty-collection part), and the
peer id still occurs in `hash_table_files["a.txt"]` even though `"a.txt"` is
no longer among its files (violating the claimed biconditional). -/
theorem runOps_invariant_counterexample :
    dictLookup (runOps [Op.register "1.2.3.4" ["a.txt"] 9000,
        Op.register "1.2.3.4" [] 9000]).hash_table_peer_files "1.2.3.4:9000" =
      some [] ∧
    "1.2.3.4:9000" ∈
      (dictLookup (runOps [Op.register "1.2.3.4" ["a.txt"] 9000,
        Op.register "1.2.3.4" [] 9000]).hash_table_files "a.txt").getD [] := by
  decide

/-- C4 counterexample: an `update` with task `add`, a peer id that was never
registered, and an empty file list returns `True` (the loop body never runs
and the method falls through to `return True`), not the claimed failure. -/
theorem update_unknown_peer_counterexample :
    dictLookup emptyState.hash_table_peer_files "ghost" = none ∧
    update emptyState ⟨"add", "ghost", []⟩ = (true, emptyState) := by
  decide

/-- C4 (amended): an `update` with task `add` or `rm` for a peer id absent
from `hash_table_peer_files` leaves all three tables unchanged; it returns
failure when the file list is nonempty (the first loop iteration raises
`KeyError`), but returns success when the file list is empty. -/
theorem update_unknown_peer (s : ServerState) (pu : PeerUpdate)
    (htask : pu.task = "add" ∨ pu.task = "rm")
    (hpeer : dictLookup s.hash_table_peer_files pu.peer_id = none) :
    (pu.files = [] → update s pu = (true, s)) ∧
    (pu.files ≠ [] → update s pu = (false, s)) := by
  obtain ⟨task, pid, files⟩ := pu
  simp only at htask hpeer ⊢
  constructor
  · intro hfe
    subst hfe
    rcases htask with h | h
    · subst h
      simp [update, updateAddLoop]
    · subst h
      simp [update, updateRmLoop]
  · intro hne
    cases files with
    | nil => exact absurd rfl hne
    | cons f rest =>
      rcases htask with h | h
      · subst h
        simp [update, updateAddLoop, hpeer]
      · subst h
        simp [update, updateRmLoop, hpeer]

/-- C4 witness: a nonempty `add` update for an unregistered peer fails and
leaves the fresh state unchanged. -/
theorem update_unknown_peer_witness :
    dictLookup emptyState.hash_table_peer_files "ghost" = none ∧
    update emptyState ⟨"add", "ghost", ["a.txt"]⟩ = (false, emptyState) :=
  ⟨by decide,
    (update_unknown_peer emptyState ⟨"add", "ghost", ["a.txt"]⟩ (Or.inl rfl)
      (by decide)).2 (by decide)⟩

/-! ### Deregistration postconditions -/

theorem deregistry_port_none (s : ServerState) (pd : PeerData)
    (hports : (s.hash_table_ports_peers.map Prod.fst).Nodup) :
    dictLookup (deregistry s pd).2.hash_table_ports_peers pd.hosting_port = none := by
  simp only [deregistry]
  by_cases h : (dictLookup s.hash_table_ports_peers pd.hosting_port).isSome = true
  · rw [if_pos h]
    exact dictLookup_pop_self _ hports
  · rw [if_neg h]
    cases hx : dictLookup s.hash_table_ports_peers pd.hosting_port with
    | none => rfl
    | some v =>
      rw [hx] at h
      simp at h

theorem deregistry_peer_none (s : ServerState) (pd : PeerData)
    (hpeers : (s.hash_table_peer_files.map Prod.fst).Nodup) :
    dictLookup (deregistry s pd).2.hash_table_peer_files pd.peer_id = none := by
  simp only [deregistry]
  by_cases h : (dictLookup s.hash_table_peer_files pd.peer_id).isSome = true
  · rw [if_pos h]
    exact dictLookup_pop_self _ hpeers
  · rw [if_neg h]
    cases hx : dictLookup s.hash_table_peer_files pd.peer_id with
    | none => rfl
    | some v =>
      rw [hx] at h
      simp at h

theorem deregistry_files_post (s : ServerState) (pd : PeerData)
    (hfiles : (s.hash_table_files.map Prod.fst).Nodup)
    (hcount : ∀ f ∈ pd.files,
      ((dictLookup s.hash_table_files f).getD []).count pd.peer_id ≤ 1) :
    ∀ f ∈ pd.files,
      dictLookup (deregistry s pd).2.hash_table_files f = none ∨
      ∃ l, dictLookup (deregistry s pd).2.hash_table_files f = some l ∧
        pd.peer_id ∉ l ∧ l ≠ [] := by
  simp only [deregistry]
  exact deregFileLoop_postcondition _ pd.files _ hfiles hcount

/-- C8 (amended): provided the peer id occurs at most once in
`hash_table_files[f]` for every `f` of the request (true in particular in
every state whose lists are duplicate-free), `deregistry` returns success and
afterwards the hosting port is gone from `hash_table_ports_peers`, the peer
id is gone from `hash_table_peer_files`, and for every file of the request
the peer id no longer occurs in `hash_table_files[f]`, the key being deleted
whenever its list became empty (so every surviving list is nonempty).  The
unrestricted claim is refuted by `deregistry_leftover_counterexample`. -/
theorem deregistry_spec (s : ServerState) (pd : PeerData)
    (hports : (s.hash_table_ports_peers.map Prod.fst).Nodup)
    (hfiles : (s.hash_table_files.map Prod.fst).Nodup)
    (hpeers : (s.hash_table_peer_files.map Prod.fst).Nodup)
    (hcount : ∀ f ∈ pd.files,
      ((dictLookup s.hash_table_files f).getD []).count pd.peer_id ≤ 1) :
    (deregistry s pd).1 = true ∧
    dictLookup (deregistry s pd).2.hash_table_ports_peers pd.hosting_port = none ∧
    dictLookup (deregistry s pd).2.hash_table_peer_files pd.peer_id = none ∧
    ∀ f ∈ pd.files,
      dictLookup (deregistry s pd).2.hash_table_files f = none ∨
      ∃ l, dictLookup (deregistry s pd).2.hash_table_files f = some l ∧
        pd.peer_id ∉ l ∧ l ≠ [] :=
  ⟨rfl, deregistry_port_none s pd hports, deregistry_peer_none s pd hpeers,
    deregistry_files_post s pd hfiles hcount⟩

/-- C8 witness: deregistering the only registration of peer `1.2.3.4:9000`
removes it from all three tables. -/
theorem deregistry_spec_witness :
    dictLookup (deregistry (registry emptyState "1.2.3.4" ["a.txt"] 9000).2
        ⟨"1.2.3.4:9000", 9000, ["a.txt"]⟩).2.hash_table_peer_files "1.2.3.4:9000" =
      none :=
  (deregistry_spec (registry emptyState "1.2.3.4" ["a.txt"] 9000).2
    ⟨"1.2.3.4:9000", 9000, ["a.txt"]⟩ (by decide) (by decide) (by decide)
    (by decide)).2.2.1

/-- C8 counterexample: after registering the same peer twice with the same
file (a reachable sequence that leaves its peer id twice in
`hash_table_files["a.txt"]`), one `deregistry` call still leaves the peer id
in `hash_table_files["a.txt"]`: the remove-while-iterating loop in lines
163-167 skips the element that slides into the removed slot. -/
theorem deregistry_leftover_counterexample :
    "1.2.3.4:9000" ∈
      (dictLookup (deregistry (registry (registry emptyState "1.2.3.4" ["a.txt"] 9000).2
          "1.2.3.4" ["a.txt"] 9000).2
          ⟨"1.2.3.4:9000", 9000, ["a.txt"]⟩).2.hash_table_files "a.txt").getD [] := by
  decide

/-- C5 (amended): provided the peer id occurs at most once in
`hash_table_files[f]` for every `f` of the request (true in particular in
every state whose lists are duplicate-free), `deregistry` reports success and
is idempotent: an immediate second identical call reports success and
returns the state unchanged; in particular deregistering an absent peer does
not fault.  The unrestricted claim is refuted by
`deregistry_idempotent_counterexample`. -/
theorem deregistry_idempotent (s : ServerState) (pd : PeerData)
    (hports : (s.hash_table_ports_peers.map Prod.fst).Nodup)
    (hfiles : (s.hash_table_files.map Prod.fst).Nodup)
    (hpeers : (s.hash_table_peer_files.map Prod.fst).Nodup)
    (hcount : ∀ f ∈ pd.files,
      ((dictLookup s.hash_table_files f).getD []).count pd.peer_id ≤ 1) :
    (deregistry s pd).1 = true ∧
    deregistry (deregistry s pd).2 pd = (true, (deregistry s pd).2) := by
  refine ⟨rfl, ?_⟩
  have hport1 := deregistry_port_none s pd hports
  have hpeer1 := deregistry_peer_none s pd hpeers
  have hftp1 := deregistry_files_post s pd hfiles hcount
  set s1 := (deregistry s pd).2 with hs1
  have g1 : ¬ ((dictLookup s1.hash_table_ports_peers pd.hosting_port).isSome = true) := by
    rw [hport1]
    simp
  have g2 : ¬ ((dictLookup s1.hash_table_peer_files pd.peer_id).isSome = true) := by
    rw [hpeer1]
    simp
  show deregistry s1 pd = (true, s1)
  simp only [deregistry]
  rw [if_neg g1, if_neg g2, deregFileLoop_id pd.peer_id pd.files s1.hash_table_files hftp1]

/-- C5 witness: deregistering peer `1.2.3.4:9000` twice after a single
registration succeeds both times and the second call changes nothing. -/
theorem deregistry_idempotent_witness :
    deregistry (deregistry (registry emptyState "1.2.3.4" ["a.txt"] 9000).2
        ⟨"1.2.3.4:9000", 9000, ["a.txt"]⟩).2 ⟨"1.2.3.4:9000", 9000, ["a.txt"]⟩ =
      (true, (deregistry (registry emptyState "1.2.3.4" ["a.txt"] 9000).2
        ⟨"1.2.3.4:9000", 9000, ["a.txt"]⟩).2) :=
  (deregistry_idempotent (registry emptyState "1.2.3.4" ["a.txt"] 9000).2
    ⟨"1.2.3.4:9000", 9000, ["a.txt"]⟩ (by decide) (by decide) (by decide)
    (by decide)).2

/-- C5 counterexample: after registering the same peer twice with the same
file, the first `deregistry` leaves one copy of the peer id in
`hash_table_files["a.txt"]` and the second removes it, so the states after
the first and after the second call differ (both calls report success). -/
theorem deregistry_idempotent_counterexample :
    (deregistry (registry (registry emptyState "1.2.3.4" ["a.txt"] 9000).2
        "1.2.3.4" ["a.txt"] 9000).2 ⟨"1.2.3.4:9000", 9000, ["a.txt"]⟩).1 = true ∧
    (deregistry (deregistry (registry (registry emptyState "1.2.3.4" ["a.txt"] 9000).2
        "1.2.3.4" ["a.txt"] 9000).2 ⟨"1.2.3.4:9000", 9000, ["a.txt"]⟩).2
        ⟨"1.2.3.4:9000", 9000, ["a.txt"]⟩).1 = true ∧
    (deregistry (deregistry (registry (registry emptyState "1.2.3.4" ["a.txt"] 9000).2
        "1.2.3.4" ["a.txt"] 9000).2 ⟨"1.2.3.4:9000", 9000, ["a.txt"]⟩).2
        ⟨"1.2.3.4:9000", 9000, ["a.txt"]⟩).2 ≠
      (deregistry (registry (registry emptyState "1.2.3.4" ["a.txt"] 9000).2
        "1.2.3.4" ["a.txt"] 9000).2 ⟨"1.2.3.4:9000", 9000, ["a.txt"]⟩).2 := by
  refine ⟨rfl, rfl, ?_⟩
  decide

/-- C6 counterexample: a reachable state (register peer p with `b.txt`,
register peer q with `b.txt`, re-register p with `a.txt`) in which p is
registered with exactly `["a.txt"]` yet still occurs in
`hash_table_files["b.txt"]` ahead of q; the add/rm round trip of `b.txt`
then shrinks `hash_table_files["b.txt"]` from `[p, q]` to `[q]` (the
remove-while-iterating loop erases both copies of p), so
`hash_table_files` is not restored. -/
theorem update_roundtrip_counterexample :
    dictLookup (runOps [Op.register "1.2.3.4" ["b.txt"] 9000,
        Op.register "5.6.7.8" ["b.txt"] 9001,
        Op.register "1.2.3.4" ["a.txt"] 9000]).hash_table_peer_files "1.2.3.4:9000" =
      some ["a.txt"] ∧
    (update (update (runOps [Op.register "1.2.3.4" ["b.txt"] 9000,
        Op.register "5.6.7.8" ["b.txt"] 9001,
        Op.register "1.2.3.4" ["a.txt"] 9000]) ⟨"add", "1.2.3.4:9000", ["b.txt"]⟩).2
        ⟨"rm", "1.2.3.4:9000", ["b.txt"]⟩).2.hash_table_files ≠
      (runOps [Op.register "1.2.3.4" ["b.txt"] 9000,
        Op.register "5.6.7.8" ["b.txt"] 9001,
        Op.register "1.2.3.4" ["a.txt"] 9000]).hash_table_files := by
  decide

/-- C6 (amended): from any state in which the peer's registered file list is
exactly `["a.txt"]` and the peer id does not already occur in
`hash_table_files["b.txt"]` (whose list, when the key is present, is
nonempty) — as is the case in every state satisfying the claimed Section 3
invariant — `update(add, ["b.txt"])` followed by `update(rm, ["b.txt"])`
restores the peer's file list to `["a.txt"]` and leaves `hash_table_files`
exactly as it was before the add.  The unrestricted claim is refuted by
`update_roundtrip_counterexample`. -/
theorem update_roundtrip (s : ServerState) (pid : String)
    (hp : dictLookup s.hash_table_peer_files pid = some ["a.txt"])
    (hb : ∀ l, dictLookup s.hash_table_files "b.txt" = some l → pid ∉ l ∧ l ≠ []) :
    dictLookup (update (update s ⟨"add", pid, ["b.txt"]⟩).2
        ⟨"rm", pid, ["b.txt"]⟩).2.hash_table_peer_files pid = some ["a.txt"] ∧
    (update (update s ⟨"add", pid, ["b.txt"]⟩).2
        ⟨"rm", pid, ["b.txt"]⟩).2.hash_table_files = s.hash_table_files := by
  cases hbf : dictLookup s.hash_table_files "b.txt" with
  | none =>
    have h1 : (update s ⟨"add", pid, ["b.txt"]⟩).2 =
        { s with
          hash_table_peer_files :=
            dictInsert s.hash_table_peer_files pid ["a.txt", "b.txt"]
          hash_table_files := dictInsert s.hash_table_files "b.txt" [pid] } := by
      simp [update, updateAddLoop, hp, hbf]
    have hprl : pyRemoveLoop [pid] pid = [] := @pyRemoveLoop_append_single [] pid (by simp)
    have h2 : (update { s with
          hash_table_peer_files :=
            dictInsert s.hash_table_peer_files pid ["a.txt", "b.txt"]
          hash_table_files := dictInsert s.hash_table_files "b.txt" [pid] }
          ⟨"rm", pid, ["b.txt"]⟩).2 =
        { s with
          hash_table_peer_files :=
            dictInsert (dictInsert s.hash_table_peer_files pid ["a.txt", "b.txt"])
              pid ["a.txt"]
          hash_table_files := s.hash_table_files } := by
      simp [update, updateRmLoop, dictLookup_insert_self, listRemove, hprl,
        dictPop_insert_fresh [pid] hbf]
    rw [h1, h2]
    exact ⟨dictLookup_insert_self _ _ _, rfl⟩
  | some l =>
    obtain ⟨hpl, hlne⟩ := hb l hbf
    have h1 : (update s ⟨"add", pid, ["b.txt"]⟩).2 =
        { s with
          hash_table_peer_files :=
            dictInsert s.hash_table_peer_files pid ["a.txt", "b.txt"]
          hash_table_files := dictInsert s.hash_table_files "b.txt" (l ++ [pid]) } := by
      simp [update, updateAddLoop, hp, hbf]
    have hprl : pyRemoveLoop (l ++ [pid]) pid = l := pyRemoveLoop_append_single hpl
    have h2 : (update { s with
          hash_table_peer_files :=
            dictInsert s.hash_table_peer_files pid ["a.txt", "b.txt"]
          hash_table_files := dictInsert s.hash_table_files "b.txt" (l ++ [pid]) }
          ⟨"rm", pid, ["b.txt"]⟩).2 =
        { s with
          hash_table_peer_files :=
            dictInsert (dictInsert s.hash_table_peer_files pid ["a.txt", "b.txt"])
              pid ["a.txt"]
          hash_table_files := s.hash_table_files } := by
      simp [update, updateRmLoop, dictLookup_insert_self, listRemove, hprl, hlne,
        dictInsert_dictInsert, dictInsert_lookup_self hbf]
    rw [h1, h2]
    exact ⟨dictLookup_insert_self _ _ _, rfl⟩

/-- C6 witness: with peer `1.2.3.4:9000` freshly registered with `a.txt`,
the add/rm round trip of `b.txt` restores its file list. -/
theorem update_roundtrip_witness :
    dictLookup (update (update (registry emptyState "1.2.3.4" ["a.txt"] 9000).2
        ⟨"add", "1.2.3.4:9000", ["b.txt"]⟩).2
        ⟨"rm", "1.2.3.4:9000", ["b.txt"]⟩).2.hash_table_peer_files "1.2.3.4:9000" =
      some ["a.txt"] :=
  (update_roundtrip (registry emptyState "1.2.3.4" ["a.txt"] 9000).2 "1.2.3.4:9000"
    (by decide)
    (by
      intro l hl
      rw [show dictLookup (registry emptyState "1.2.3.4" ["a.txt"]
          9000).2.hash_table_files "b.txt" = none from by decide] at hl
      cases hl)).1
